import Mathlib

/-!
Verification of the retrieval-augmented QA core of
GoogleCloud-Terraform-RAG-Chatbot: the paragraph chunker, the batched
document indexer with its idempotency guard, the retriever, the context
formatter and the capped conversation history.  Python code from
`app/document_processor.py` and `app/rag_chain.py` is shallowly embedded:
Python strings become Lean `String`, Python ints become `Nat`/`Int`,
the external embedding model and vector store become explicit parameters
and a list-of-records store, and effects (embedding calls, store writes)
become counters threaded through an explicit state.
-/

namespace RagSpec

/-! ### Python string primitives -/

/-- Characters stripped by Python's `str.strip()` (ASCII whitespace). -/
def pyWS (c : Char) : Bool := c.isWhitespace

/-- `str.strip()` on the character list: drop whitespace from both ends. -/
def stripList (l : List Char) : List Char :=
  ((l.dropWhile pyWS).reverse.dropWhile pyWS).reverse

/-- Embedding of Python's `str.strip()`. -/
def pstrip (s : String) : String := ⟨stripList s.data⟩

/-- Prepend a character to the first group of a split. -/
def consHead (c : Char) : List (List Char) → List (List Char)
  | [] => [[c]]
  | g :: gs => (c :: g) :: gs

/-- Embedding of Python's `str.split("\n\n")` at the character level:
split on the two-character separator, leftmost-first, non-overlapping. -/
def splitChars : List Char → List (List Char)
  | [] => [[]]
  | [c] => [[c]]
  | c₁ :: c₂ :: rest =>
    if c₁ = '\n' ∧ c₂ = '\n' then
      [] :: splitChars rest
    else
      consHead c₁ (splitChars (c₂ :: rest))

/-- Embedding of Python's `text.split("\n\n")`. -/
def pySplit (s : String) : List String := (splitChars s.data).map String.mk

/-- Embedding of Python's `sep.join(parts)`. -/
def pyJoin (sep : String) : List String → String
  | [] => ""
  | [x] => x
  | x :: y :: rest => x ++ sep ++ pyJoin sep (y :: rest)

/-! ### Decimal representation of naturals (Python `f"{n}"`) -/

/-- Little-endian decimal digits of `n`, with explicit fuel so that the
definition is structural and kernel-reducible; `fuel ≥ n` is enough. -/
def decDigitsAux : Nat → Nat → List Nat
  | _, 0 => []
  | 0, _ + 1 => []
  | f + 1, n + 1 => (n + 1) % 10 :: decDigitsAux f ((n + 1) / 10)

/-- Embedding of Python's decimal formatting of a nonnegative int. -/
def decRepr (n : Nat) : String :=
  if n = 0 then "0" else ⟨((decDigitsAux n n).reverse.map Nat.digitChar)⟩

/-! ### Text Chunker (`DocumentProcessor.chunk_text_simple`) -/

/-- A chunk as built by `chunk_text_simple`: the Python dict
`{"id": ..., "text": ..., "page": ...}`. -/
structure Chunk where
  id : String
  text : String
  page : Nat
deriving DecidableEq, Repr

/-- The chunk id `f"page{page_num}_chunk{chunk_id}"`. -/
def mkChunkId (page cid : Nat) : String :=
  "page" ++ decRepr page ++ "_chunk" ++ decRepr cid

/-- The paragraph loop of `chunk_text_simple`: `current` is the running
buffer `current_chunk`, `cid` the counter `chunk_id`. -/
def chunkLoop (page chunkSize : Nat) : List String → String → Nat → List Chunk
  | [], current, cid =>
    if pstrip current ≠ "" then
      [⟨mkChunkId page cid, pstrip current, page⟩]
    else []
  | p :: rest, current, cid =>
    let para := pstrip p
    if para = "" then
      chunkLoop page chunkSize rest current cid
    else if current.length + para.length > chunkSize ∧ current ≠ "" then
      ⟨mkChunkId page cid, pstrip current, page⟩ ::
        chunkLoop page chunkSize rest para (cid + 1)
    else
      chunkLoop page chunkSize rest
        (if current = "" then para else current ++ "\n\n" ++ para) cid

/-- Embedding of `DocumentProcessor.chunk_text_simple`. -/
def chunk_text_simple (text : String) (page_num : Nat) (chunk_size : Nat := 800) :
    List Chunk :=
  chunkLoop page_num chunk_size (pySplit text) "" 0

/-! ### Document Indexer (`DocumentProcessor.process_and_store_pdf`) -/

/-- An indexed record persisted in the vector store: the tuple
`(id, embedding, document, metadata)` passed to `collection.add`;
the metadata dict `{"page": ...}` is kept as the page number. -/
structure Record where
  id : String
  vec : List Int
  text : String
  page : Nat
deriving DecidableEq, Repr

/-- The state threaded through indexing: the vector store's records plus
counters of the effects performed (embedding-model calls, store writes,
chunker invocations). -/
structure IndexState where
  store : List Record
  embedCalls : Nat
  addCalls : Nat
  chunkCalls : Nat
deriving DecidableEq, Repr

/-- `BATCH_SIZE = 50` in `document_processor.py`. -/
def BATCH_SIZE : Nat := 50

/-- Embedding of `DocumentProcessor._store_batch`: on an empty batch
return 0 immediately; otherwise embed all texts in one call and add all
records to the collection in one call. -/
def store_batch (embed : String → List Int) (st : IndexState)
    (chunks : List Chunk) : IndexState × Nat :=
  if chunks = [] then (st, 0)
  else
    let newRecs := chunks.map fun c => Record.mk c.id (embed c.text) c.text c.page
    ({ st with
        store := st.store ++ newRecs
        embedCalls := st.embedCalls + 1
        addCalls := st.addCalls + 1 },
      chunks.length)

/-- Embedding of `DocumentProcessor.extract_pages_generator`: pages are
enumerated 1-based and only pages whose extracted text strips to nonempty
are yielded, stripped. -/
def extract_pages (pdf : List String) : List (Nat × String) :=
  (pdf.enum.filter fun it => pstrip it.2 ≠ "").map fun it => (it.1 + 1, pstrip it.2)

/-- The page loop of `process_and_store_pdf`: `buf` is `all_chunks`,
`total` is `total_indexed`; the buffer is flushed whenever it reaches
`BATCH_SIZE`, and a nonempty trailing buffer is flushed at the end. -/
def processPages (embed : String → List Int) :
    List (Nat × String) → IndexState → List Chunk → Nat → IndexState × Nat
  | [], st, buf, total =>
    if buf ≠ [] then
      let r := store_batch embed st buf
      (r.1, total + r.2)
    else (st, total)
  | (page, ptext) :: rest, st, buf, total =>
    let pageChunks := chunk_text_simple ptext page 800
    let st' := { st with chunkCalls := st.chunkCalls + 1 }
    let buf' := buf ++ pageChunks
    if buf'.length ≥ BATCH_SIZE then
      let r := store_batch embed st' buf'
      processPages embed rest r.1 [] (total + r.2)
    else
      processPages embed rest st' buf' total

/-- Embedding of `DocumentProcessor.process_and_store_pdf`: if the
collection already holds records, skip all processing and return the
existing count; otherwise chunk and index every extracted page. -/
def process_and_store_pdf (embed : String → List Int) (st : IndexState)
    (pdf : List String) : IndexState × Nat :=
  if st.store.length > 0 then (st, st.store.length)
  else processPages embed (extract_pages pdf) st [] 0

/-! ### Retriever (`DocumentProcessor.search`) -/

/-- Squared Euclidean distance between integer vectors: the concrete
distance by which the modelled vector store ranks records. -/
def sqDist (a b : List Int) : Nat :=
  ((List.zipWith (fun x y => ((x - y) * (x - y)).toNat) a b)).sum

/-- `settings.max_context_chunks` (config.py default). -/
def max_context_chunks : Nat := 5

/-- Embedding of the Python line `n_results = n_results or
settings.max_context_chunks`: `None` and `0` are falsy and replaced by
the default; every other int (negative ones included) is kept. -/
def effective_n_results (n_results : Option Int) : Int :=
  match n_results with
  | none => (max_context_chunks : Int)
  | some k => if k = 0 then (max_context_chunks : Int) else k

/-- Distance ordering on records relative to a query vector. -/
def distLE (qv : List Int) (a b : Record) : Prop :=
  sqDist qv a.vec ≤ sqDist qv b.vec

instance (qv : List Int) : DecidableRel (distLE qv) :=
  fun a b => Nat.decLe (sqDist qv a.vec) (sqDist qv b.vec)

instance (qv : List Int) : IsTotal Record (distLE qv) :=
  ⟨fun a b => Nat.le_total (sqDist qv a.vec) (sqDist qv b.vec)⟩

instance (qv : List Int) : IsTrans Record (distLE qv) :=
  ⟨fun _ _ _ => Nat.le_trans⟩

/-- Modelled from the spec: the Vector Store Capability's
nearest-neighbor query (`collection.query`), an external collaborator of
the core.  It returns the `k` stored records nearest to the query vector
in ascending-distance order; a negative requested count is outside its
contract and errors (`none`). -/
def collectionQuery (store : List Record) (qv : List Int) (k : Int) :
    Option (List Record) :=
  if k < 0 then none
  else some ((store.insertionSort (distLE qv)).take k.toNat)

/-- One formatted search result: the dict
`{"text": ..., "distance": ..., "metadata": ...}` built by `search`. -/
structure SearchResult where
  text : String
  distance : Option Nat
  metadata : Option Nat
deriving DecidableEq, Repr

/-- Embedding of `DocumentProcessor.search`: resolve the requested
result count Python-truthily, embed the query, ask the store, and format
the returned parallel lists; an empty document list yields `[]`. -/
def search (embed : String → List Int) (store : List Record) (query : String)
    (n_results : Option Int) : Option (List SearchResult) :=
  let n := effective_n_results n_results
  let qv := embed query
  match collectionQuery store qv n with
  | none => none
  | some recs =>
    let docs := recs.map (·.text)
    if docs = [] then some []
    else some (recs.map fun r => SearchResult.mk r.text (some (sqDist qv r.vec)) (some r.page))

/-! ### RAG chain (`rag_chain.py`) -/

/-- A conversation message `{"role": ..., "content": ...}`. -/
structure Msg where
  role : String
  content : String
deriving DecidableEq, Repr

/-- Embedding of `RAGChain._build_context_prompt`: an empty chunk list
becomes the explicit no-context marker, otherwise each chunk text is
prefixed with its 1-based `[Context i]` label and the parts are joined
with blank lines. -/
def build_context_prompt (context_chunks : List SearchResult) : String :=
  if context_chunks = [] then "No relevant context found in the documentation."
  else
    pyJoin "\n\n"
      (context_chunks.enum.map fun ic =>
        "[Context " ++ decRepr (ic.1 + 1) ++ "]\n" ++ ic.2.text)

/-- The history cap used in `RAGChain.query` (`if len(...) > 20`). -/
def HISTORY_CAP : Nat := 20

/-- The last `n` elements of a list: Python's `l[-n:]` for `n ≥ 1`. -/
def rtake (n : Nat) (l : List α) : List α := l.drop (l.length - n)

/-- The history update performed by one successful `RAGChain.query` call:
append the raw question as a user turn and the answer as an assistant
turn, then trim to the most recent `HISTORY_CAP` messages. -/
def updateHistory (h : List Msg) (question answer : String) : List Msg :=
  let h' := h ++ [Msg.mk "user" question, Msg.mk "assistant" answer]
  if h'.length > HISTORY_CAP then rtake HISTORY_CAP h' else h'

/-- The conversation history after a sequence of successful `query`
calls, each given as its (question, answer) pair, starting from the
empty history a fresh `RAGChain` holds. -/
def applyQueries (qas : List (String × String)) : List Msg :=
  qas.foldl (fun h qa => updateHistory h qa.1 qa.2) []

/-- The untrimmed transcript of a sequence of query calls: one user turn
then one assistant turn per call. -/
def transcript (qas : List (String × String)) : List Msg :=
  (qas.map fun qa => [Msg.mk "user" qa.1, Msg.mk "assistant" qa.2]).flatten

/-- History well-formedness: even length and strict user/assistant
alternation starting with a user turn. -/
def alternating : List Msg → Bool
  | [] => true
  | [_] => false
  | u :: a :: rest => u.role == "user" && a.role == "assistant" && alternating rest

/-! ## Lemmas about the Python string primitives -/

/-- A string that stripping leaves unchanged and that is nonempty:
the shape of every paragraph the chunker accumulates. -/
def StrippedNE (s : String) : Prop := pstrip s = s ∧ s ≠ ""

theorem dropWhile_head_false {α : Type} {p : α → Bool} :
    ∀ {l : List α} {x : α} {xs : List α}, l.dropWhile p = x :: xs → p x = false
  | [], x, xs, h => by simp [List.dropWhile] at h
  | a :: as, x, xs, h => by
    rw [List.dropWhile_cons] at h
    by_cases hp : p a = true
    · exact dropWhile_head_false (by simpa [hp] using h)
    · simp [hp] at h
      simp [← h.1, Bool.eq_false_iff, hp]

theorem dropWhile_eq_self_of_head {α : Type} {p : α → Bool} {x : α} {xs : List α}
    (h : p x = false) : List.dropWhile p (x :: xs) = x :: xs := by
  simp [List.dropWhile_cons, h]

theorem stripList_eq_self {l : List Char}
    (h1 : ∀ c, l.head? = some c → pyWS c = false)
    (h2 : ∀ c, l.reverse.head? = some c → pyWS c = false) :
    stripList l = l := by
  unfold stripList
  cases l with
  | nil => rfl
  | cons x xs =>
    rw [dropWhile_eq_self_of_head (h1 x rfl)]
    cases hr : (x :: xs).reverse with
    | nil => simp at hr
    | cons y ys =>
      rw [dropWhile_eq_self_of_head (h2 y (by rw [hr]; rfl)), ← hr,
        List.reverse_reverse]

theorem stripList_is_prefix_dropWhile (l : List Char) :
    ∃ t, List.dropWhile pyWS l = stripList l ++ t := by
  refine ⟨(List.takeWhile pyWS (List.dropWhile pyWS l).reverse).reverse, ?_⟩
  unfold stripList
  conv_lhs => rw [← List.reverse_reverse (List.dropWhile pyWS l),
    ← List.takeWhile_append_dropWhile (p := pyWS) (List.dropWhile pyWS l).reverse]
  rw [List.reverse_append]

theorem stripList_head_not_ws {l : List Char} {c : Char} {cs : List Char}
    (h : stripList l = c :: cs) : pyWS c = false := by
  obtain ⟨t, ht⟩ := stripList_is_prefix_dropWhile l
  rw [h] at ht
  exact dropWhile_head_false (l := l) (by rw [ht]; rfl)

theorem stripList_last_not_ws {l : List Char} {c : Char} {cs : List Char}
    (h : (stripList l).reverse = c :: cs) : pyWS c = false := by
  have : (stripList l).reverse = List.dropWhile pyWS (List.dropWhile pyWS l).reverse := by
    unfold stripList; rw [List.reverse_reverse]
  exact dropWhile_head_false (l := (List.dropWhile pyWS l).reverse) (by rw [← this, h])

theorem stripList_idem (l : List Char) : stripList (stripList l) = stripList l := by
  apply stripList_eq_self
  · intro c hc
    cases h : stripList l with
    | nil => rw [h] at hc; simp at hc
    | cons x xs =>
      rw [h] at hc
      simp only [List.head?_cons, Option.some.injEq] at hc
      subst hc
      exact stripList_head_not_ws h
  · intro c hc
    cases h : (stripList l).reverse with
    | nil => rw [h] at hc; simp at hc
    | cons x xs =>
      rw [h] at hc
      simp only [List.head?_cons, Option.some.injEq] at hc
      subst hc
      exact stripList_last_not_ws h

theorem data_empty : ("" : String).data = [] := rfl

theorem string_ne_empty_iff {s : String} : s ≠ "" ↔ s.data ≠ [] := by
  constructor
  · intro h hd
    exact h (String.ext (by rw [hd]))
  · intro h hs
    exact h (by rw [hs])

theorem pstrip_data (s : String) : (pstrip s).data = stripList s.data := rfl

theorem pstrip_idem (s : String) : pstrip (pstrip s) = pstrip s :=
  String.ext (by rw [pstrip_data, pstrip_data, stripList_idem])

theorem pstrip_empty : pstrip "" = "" := rfl

theorem stripList_eq_nil_iff {l : List Char} :
    stripList l = [] ↔ ∀ c ∈ l, pyWS c = true := by
  constructor
  · intro h c hc
    have hsplit : l = List.takeWhile pyWS l ++ List.dropWhile pyWS l :=
      (List.takeWhile_append_dropWhile (p := pyWS) (l := l)).symm
    have hrev : List.dropWhile pyWS (List.dropWhile pyWS l).reverse = [] := by
      have : (stripList l).reverse = List.dropWhile pyWS (List.dropWhile pyWS l).reverse := by
        unfold stripList; rw [List.reverse_reverse]
      rw [← this, h]; rfl
    have hall : ∀ c ∈ (List.dropWhile pyWS l).reverse, pyWS c = true :=
      List.dropWhile_eq_nil_iff.mp hrev
    rw [hsplit] at hc
    rcases List.mem_append.mp hc with h1 | h1
    · exact List.mem_takeWhile_imp h1
    · exact hall c (List.mem_reverse.mpr h1)
  · intro h
    unfold stripList
    rw [List.dropWhile_eq_nil_iff.mpr h]
    rfl

theorem pstrip_eq_empty_iff {s : String} :
    pstrip s = "" ↔ ∀ c ∈ s.data, pyWS c = true := by
  rw [← stripList_eq_nil_iff]
  constructor
  · intro h
    have := congrArg String.data h
    rwa [pstrip_data, data_empty] at this
  · intro h
    exact String.ext (by rw [pstrip_data, data_empty, h])

theorem StrippedNE_pstrip {s : String} (h : pstrip s ≠ "") : StrippedNE (pstrip s) :=
  ⟨pstrip_idem s, h⟩

theorem StrippedNE_data_ne_nil {s : String} (h : StrippedNE s) : s.data ≠ [] :=
  string_ne_empty_iff.mp h.2

theorem StrippedNE_head_not_ws {s : String} (h : StrippedNE s) {c : Char} {cs : List Char}
    (hd : s.data = c :: cs) : pyWS c = false := by
  apply stripList_head_not_ws (l := s.data)
  rw [← pstrip_data, h.1, hd]

theorem StrippedNE_last_not_ws {s : String} (h : StrippedNE s) {c : Char} {cs : List Char}
    (hd : s.data.reverse = c :: cs) : pyWS c = false := by
  apply stripList_last_not_ws (l := s.data)
  rw [← pstrip_data, h.1, hd]

/-- The blank-line separator used by the chunker's buffer. -/
theorem sep_data : ("\n\n" : String).data = ['\n', '\n'] := rfl

theorem StrippedNE_append_sep {a b : String} (ha : StrippedNE a) (hb : StrippedNE b) :
    StrippedNE (a ++ "\n\n" ++ b) := by
  have hdata : (a ++ "\n\n" ++ b).data = a.data ++ ['\n', '\n'] ++ b.data := by
    rw [String.data_append, String.data_append, sep_data]
  cases hA : a.data with
  | nil => exact absurd hA (StrippedNE_data_ne_nil ha)
  | cons x xs =>
  cases hB : b.data.reverse with
  | nil =>
    exact absurd (by simpa using congrArg List.reverse hB) (StrippedNE_data_ne_nil hb)
  | cons y ys =>
  constructor
  · apply String.ext
    rw [pstrip_data]
    apply stripList_eq_self
    · intro c hc
      rw [hdata, hA] at hc
      simp only [List.cons_append, List.head?_cons, Option.some.injEq] at hc
      subst hc
      exact StrippedNE_head_not_ws ha hA
    · intro c hc
      rw [hdata, List.reverse_append, List.reverse_append, hB] at hc
      simp only [List.cons_append, List.head?_cons, Option.some.injEq] at hc
      subst hc
      exact StrippedNE_last_not_ws hb hB
  · rw [string_ne_empty_iff, hdata, hA]
    simp

/-! ## Lemmas about `pyJoin` -/

theorem pyJoin_singleton (sep x : String) : pyJoin sep [x] = x := rfl

theorem pyJoin_cons_cons (sep x y : String) (rest : List String) :
    pyJoin sep (x :: y :: rest) = x ++ sep ++ pyJoin sep (y :: rest) := rfl

theorem pyJoin_length_ge (sep x : String) :
    ∀ xs : List String, x.length ≤ (pyJoin sep (x :: xs)).length
  | [] => le_refl _
  | y :: rest => by
    rw [pyJoin_cons_cons, String.length_append, String.length_append]
    omega

theorem StrippedNE_pyJoin {g : List String} (hne : g ≠ [])
    (hall : ∀ s ∈ g, StrippedNE s) : StrippedNE (pyJoin "\n\n" g) := by
  induction g with
  | nil => exact absurd rfl hne
  | cons x rest ih =>
    cases rest with
    | nil => exact hall x (by simp)
    | cons y rest' =>
      rw [pyJoin_cons_cons]
      exact StrippedNE_append_sep (hall x (by simp))
        (ih (by simp) (fun s hs => hall s (List.mem_cons_of_mem x hs)))

theorem pyJoin_append_singleton (sep x : String) :
    ∀ g : List String, g ≠ [] →
      pyJoin sep (g ++ [x]) = pyJoin sep g ++ sep ++ x
  | [], h => absurd rfl h
  | [a], _ => rfl
  | a :: b :: rest, _ => by
    have ih := pyJoin_append_singleton sep x (b :: rest) (by simp)
    rw [List.cons_append] at ih
    show pyJoin sep (a :: b :: (rest ++ [x])) = pyJoin sep (a :: b :: rest) ++ sep ++ x
    rw [pyJoin_cons_cons, pyJoin_cons_cons, ih]
    simp [String.append_assoc]

/-! ## Lemmas about `splitChars` -/

theorem consHead_ne_nil (c : Char) (gs : List (List Char)) : consHead c gs ≠ [] := by
  cases gs <;> simp [consHead]

theorem splitChars_ne_nil : ∀ l : List Char, splitChars l ≠ [] := by
  intro l
  induction l using splitChars.induct with
  | case1 => simp [splitChars]
  | case2 c => simp [splitChars]
  | case3 c₁ c₂ rest h ih =>
    rw [splitChars, if_pos h]
    simp
  | case4 c₁ c₂ rest h ih =>
    rw [splitChars, if_neg h]
    exact consHead_ne_nil _ _

/-- Join groups back with the two-newline separator. -/
def joinSep : List (List Char) → List Char
  | [] => []
  | [g] => g
  | g :: g' :: gs => g ++ '\n' :: '\n' :: joinSep (g' :: gs)

theorem joinSep_cons_of_ne_nil (g : List Char) {gs : List (List Char)} (h : gs ≠ []) :
    joinSep (g :: gs) = g ++ '\n' :: '\n' :: joinSep gs := by
  cases gs with
  | nil => exact absurd rfl h
  | cons g' gs' => rfl

theorem joinSep_consHead (c : Char) {gs : List (List Char)} (h : gs ≠ []) :
    joinSep (consHead c gs) = c :: joinSep gs := by
  cases gs with
  | nil => exact absurd rfl h
  | cons g gs' =>
    cases gs' with
    | nil => rfl
    | cons g'' gs'' => rfl

theorem joinSep_splitChars : ∀ l : List Char, joinSep (splitChars l) = l := by
  intro l
  induction l using splitChars.induct with
  | case1 => rfl
  | case2 c => rfl
  | case3 c₁ c₂ rest h ih =>
    rw [splitChars, if_pos h,
      joinSep_cons_of_ne_nil _ (splitChars_ne_nil rest), ih]
    simp [h.1, h.2]
  | case4 c₁ c₂ rest h ih =>
    rw [splitChars, if_neg h, joinSep_consHead c₁ (splitChars_ne_nil _), ih]

theorem mem_joinSep {c : Char} : ∀ {gs : List (List Char)},
    c ∈ joinSep gs → (∃ g ∈ gs, c ∈ g) ∨ c = '\n'
  | [], h => by simp [joinSep] at h
  | [g], h => Or.inl ⟨g, by simp, h⟩
  | g :: g' :: gs', h => by
    rw [joinSep_cons_of_ne_nil _ (by simp)] at h
    rcases List.mem_append.mp h with h1 | h1
    · exact Or.inl ⟨g, by simp, h1⟩
    · rcases List.mem_cons.mp h1 with hc | h1'
      · exact Or.inr hc
      · rcases List.mem_cons.mp h1' with hc | h2
        · exact Or.inr hc
        · rcases mem_joinSep h2 with ⟨g₀, hg₀, hc⟩ | hc
          · exact Or.inl ⟨g₀, List.mem_cons_of_mem g hg₀, hc⟩
          · exact Or.inr hc

/-! ## Injectivity of the decimal representation and of chunk ids -/

/-- The value denoted by a little-endian decimal digit list. -/
def digitsVal : List Nat → Nat
  | [] => 0
  | d :: ds => d + 10 * digitsVal ds

theorem decDigitsAux_val : ∀ (f n : Nat), n ≤ f → digitsVal (decDigitsAux f n) = n
  | _, 0, _ => by cases ‹Nat› <;> rfl
  | 0, n + 1, h => absurd h (by omega)
  | f + 1, n + 1, h => by
    have hdiv : (n + 1) / 10 ≤ f := by
      have := Nat.div_lt_self (Nat.succ_pos n) (by omega : 1 < 10)
      omega
    show digitsVal ((n + 1) % 10 :: decDigitsAux f ((n + 1) / 10)) = n + 1
    rw [digitsVal, decDigitsAux_val f ((n + 1) / 10) hdiv]
    exact Nat.mod_add_div (n + 1) 10

theorem decDigitsAux_lt_ten : ∀ (f n : Nat), ∀ d ∈ decDigitsAux f n, d < 10
  | _, 0, d, hd => by cases ‹Nat› <;> simp [decDigitsAux] at hd
  | 0, _ + 1, d, hd => by simp [decDigitsAux] at hd
  | f + 1, n + 1, d, hd => by
    rcases List.mem_cons.mp hd with h | h
    · rw [h]; exact Nat.mod_lt _ (by omega)
    · exact decDigitsAux_lt_ten f ((n + 1) / 10) d h

theorem digitChar_inj_lt_ten :
    ∀ d₁ < 10, ∀ d₂ < 10, Nat.digitChar d₁ = Nat.digitChar d₂ → d₁ = d₂ := by decide

theorem map_digitChar_inj : ∀ {l₁ l₂ : List Nat},
    (∀ d ∈ l₁, d < 10) → (∀ d ∈ l₂, d < 10) →
    l₁.map Nat.digitChar = l₂.map Nat.digitChar → l₁ = l₂
  | [], [], _, _, _ => rfl
  | [], _ :: _, _, _, h => by simp at h
  | _ :: _, [], _, _, h => by simp at h
  | a :: l₁, b :: l₂, h₁, h₂, h => by
    simp only [List.map_cons, List.cons.injEq] at h
    have ha := h₁ a (by simp)
    have hb := h₂ b (by simp)
    rw [digitChar_inj_lt_ten a ha b hb h.1,
      map_digitChar_inj (fun d hd => h₁ d (List.mem_cons_of_mem a hd))
        (fun d hd => h₂ d (List.mem_cons_of_mem b hd)) h.2]

theorem decRepr_injective : Function.Injective decRepr := by
  intro m n h
  by_cases hm : m = 0 <;> by_cases hn : n = 0
  · rw [hm, hn]
  · exfalso
    rw [hm] at h
    have hd := congrArg String.data h
    simp only [decRepr, if_pos rfl, if_neg hn] at hd
    have hd' : (decDigitsAux n n).reverse.map Nat.digitChar = ['0'] := hd.symm
    have hrev : (decDigitsAux n n).reverse = [0] := by
      apply map_digitChar_inj
        (fun d hdm => decDigitsAux_lt_ten n n d (List.mem_reverse.mp hdm))
        (by simp) (by rw [hd']; rfl)
    have hsingle : decDigitsAux n n = [0] := by
      have := congrArg List.reverse hrev
      simpa using this
    have hv := decDigitsAux_val n n (le_refl n)
    rw [hsingle] at hv
    simp [digitsVal] at hv
    exact hn hv.symm
  · exfalso
    rw [hn] at h
    have hd := congrArg String.data h
    simp only [decRepr, if_pos rfl, if_neg hm] at hd
    have hd' : (decDigitsAux m m).reverse.map Nat.digitChar = ['0'] := hd
    have hrev : (decDigitsAux m m).reverse = [0] := by
      apply map_digitChar_inj
        (fun d hdm => decDigitsAux_lt_ten m m d (List.mem_reverse.mp hdm))
        (by simp) (by rw [hd']; rfl)
    have hsingle : decDigitsAux m m = [0] := by
      have := congrArg List.reverse hrev
      simpa using this
    have hv := decDigitsAux_val m m (le_refl m)
    rw [hsingle] at hv
    simp [digitsVal] at hv
    exact hm hv.symm
  · have hd := congrArg String.data h
    simp only [decRepr, if_neg hm, if_neg hn] at hd
    have : (decDigitsAux m m).reverse = (decDigitsAux n n).reverse :=
      map_digitChar_inj
        (fun d hdm => decDigitsAux_lt_ten m m d (List.mem_reverse.mp hdm))
        (fun d hdn => decDigitsAux_lt_ten n n d (List.mem_reverse.mp hdn)) hd
    have hmn : decDigitsAux m m = decDigitsAux n n := by
      have := congrArg List.reverse this
      simpa using this
    rw [← decDigitsAux_val m m (le_refl m), ← decDigitsAux_val n n (le_refl n), hmn]

theorem mkChunkId_inj_right (page : Nat) {i j : Nat}
    (h : mkChunkId page i = mkChunkId page j) : i = j := by
  have hd := congrArg String.data h
  simp only [mkChunkId, String.data_append, List.append_assoc] at hd
  have h1 := List.append_cancel_left hd
  have h2 := List.append_cancel_left h1
  have h3 := List.append_cancel_left h2
  exact decRepr_injective (String.ext h3)

/-! ## Lemmas about the chunker -/

/-- The stripped, nonempty paragraphs of a paragraph list, in order:
exactly the paragraphs the chunker keeps. -/
def parasOf (ps : List String) : List String :=
  (ps.map pstrip).filter fun s => decide (s ≠ "")

theorem parasOf_nil : parasOf [] = [] := rfl

theorem parasOf_cons_empty {p : String} (h : pstrip p = "") (rest : List String) :
    parasOf (p :: rest) = parasOf rest := by
  simp [parasOf, h]

theorem parasOf_cons_ne {p : String} (h : pstrip p ≠ "") (rest : List String) :
    parasOf (p :: rest) = pstrip p :: parasOf rest := by
  simp [parasOf, h]

theorem chunkLoop_nil_pos {current : String} (page T cid : Nat)
    (h : pstrip current ≠ "") :
    chunkLoop page T [] current cid =
      [⟨mkChunkId page cid, pstrip current, page⟩] := by
  simp [chunkLoop, h]

theorem chunkLoop_nil_neg {current : String} (page T cid : Nat)
    (h : pstrip current = "") :
    chunkLoop page T [] current cid = [] := by
  simp [chunkLoop, h]

theorem chunkLoop_cons_empty {p : String} (page T cid : Nat)
    (rest : List String) (current : String) (h : pstrip p = "") :
    chunkLoop page T (p :: rest) current cid =
      chunkLoop page T rest current cid := by
  simp [chunkLoop, h]

theorem chunkLoop_cons_flush {p current : String} (page T cid : Nat)
    (rest : List String) (h : ¬pstrip p = "")
    (hc : current.length + (pstrip p).length > T ∧ current ≠ "") :
    chunkLoop page T (p :: rest) current cid =
      ⟨mkChunkId page cid, pstrip current, page⟩ ::
        chunkLoop page T rest (pstrip p) (cid + 1) := by
  simp only [chunkLoop]
  rw [if_neg h, if_pos hc]

theorem chunkLoop_cons_app {p current : String} (page T cid : Nat)
    (rest : List String) (h : ¬pstrip p = "")
    (hc : ¬(current.length + (pstrip p).length > T ∧ current ≠ "")) :
    chunkLoop page T (p :: rest) current cid =
      chunkLoop page T rest
        (if current = "" then pstrip p else current ++ "\n\n" ++ pstrip p) cid := by
  simp only [chunkLoop]
  rw [if_neg h, if_neg hc]

theorem pyJoin_nil (sep : String) : pyJoin sep [] = "" := rfl

/-- Core partition lemma: the chunks emitted by the paragraph loop are
exactly the blank-line joins of a consecutive partition of the pending
group followed by the remaining kept paragraphs. -/
theorem chunkLoop_groups (page T : Nat) :
    ∀ (ps g₀ : List String) (cid : Nat), (∀ s ∈ g₀, StrippedNE s) →
      ∃ groups : List (List String),
        groups.flatten = g₀ ++ parasOf ps ∧
        (∀ g ∈ groups, g ≠ [] ∧ ∀ s ∈ g, StrippedNE s) ∧
        (chunkLoop page T ps (pyJoin "\n\n" g₀) cid).map Chunk.text =
          groups.map (pyJoin "\n\n")
  | [], g₀, cid, hg => by
    cases g₀ with
    | nil =>
      refine ⟨[], by simp [parasOf_nil], by simp, ?_⟩
      rw [pyJoin_nil, chunkLoop_nil_neg page T cid pstrip_empty]
      simp
    | cons a g' =>
      have hs := StrippedNE_pyJoin (g := a :: g') (by simp) hg
      refine ⟨[a :: g'], by simp [parasOf_nil], ?_, ?_⟩
      · intro g hgm
        rw [List.mem_singleton.mp hgm]
        exact ⟨by simp, hg⟩
      · rw [chunkLoop_nil_pos page T cid (by rw [hs.1]; exact hs.2), hs.1]
        simp
  | p :: rest, g₀, cid, hg => by
    by_cases hp : pstrip p = ""
    · obtain ⟨groups, h1, h2, h3⟩ := chunkLoop_groups page T rest g₀ cid hg
      exact ⟨groups, by rw [parasOf_cons_empty hp]; exact h1, h2,
        by rw [chunkLoop_cons_empty page T cid rest _ hp]; exact h3⟩
    · have hpstrip : StrippedNE (pstrip p) := StrippedNE_pstrip hp
      by_cases hcond : (pyJoin "\n\n" g₀).length + (pstrip p).length > T ∧
          pyJoin "\n\n" g₀ ≠ ""
      · have hg₀ : g₀ ≠ [] := by
          intro hnil
          rw [hnil, pyJoin_nil] at hcond
          exact hcond.2 rfl
        have hs := StrippedNE_pyJoin hg₀ hg
        obtain ⟨groups, h1, h2, h3⟩ :=
          chunkLoop_groups page T rest [pstrip p] (cid + 1)
            (by intro s hs'; rw [List.mem_singleton.mp hs']; exact hpstrip)
        refine ⟨g₀ :: groups, ?_, ?_, ?_⟩
        · rw [List.flatten_cons, h1, parasOf_cons_ne hp]
          simp
        · intro g hgmem
          rcases List.mem_cons.mp hgmem with h | h
          · exact h ▸ ⟨hg₀, hg⟩
          · exact h2 g h
        · rw [chunkLoop_cons_flush page T cid rest hp hcond]
          rw [List.map_cons, hs.1]
          rw [show pyJoin "\n\n" [pstrip p] = pstrip p from rfl] at h3
          rw [h3]
          simp
      · obtain ⟨groups, h1, h2, h3⟩ :=
          chunkLoop_groups page T rest (g₀ ++ [pstrip p]) cid
            (by
              intro s hs'
              rcases List.mem_append.mp hs' with h | h
              · exact hg s h
              · rw [List.mem_singleton.mp h]; exact hpstrip)
        refine ⟨groups, ?_, h2, ?_⟩
        · rw [h1, parasOf_cons_ne hp]
          simp
        · rw [chunkLoop_cons_app page T cid rest hp hcond]
          cases hg₀ : g₀ with
          | nil =>
            rw [hg₀] at h3
            rw [pyJoin_nil, if_pos rfl]
            rw [show ([] : List String) ++ [pstrip p] = [pstrip p] from rfl] at h3
            rw [show pyJoin "\n\n" [pstrip p] = pstrip p from rfl] at h3
            exact h3
          | cons a g' =>
            have hne : pyJoin "\n\n" g₀ ≠ "" := (StrippedNE_pyJoin (by rw [hg₀]; simp) hg).2
            rw [← hg₀]
            rw [if_neg hne]
            rw [pyJoin_append_singleton "\n\n" (pstrip p) g₀ (by rw [hg₀]; simp)] at h3
            exact h3

/-- Size invariant of the paragraph loop: every emitted chunk is within
two characters of the threshold (the two joining newlines) unless it is
a single input paragraph that alone exceeds the threshold. -/
theorem chunkLoop_size (page T : Nat) (ps₀ : List String) :
    ∀ ps : List String, (∀ p ∈ ps, p ∈ ps₀) →
    ∀ (current : String) (cid : Nat),
      current = "" ∨ (pstrip current = current ∧
        (current.length ≤ T + 2 ∨
          ((∃ p ∈ ps₀, current = pstrip p) ∧ current.length > T))) →
    ∀ c ∈ chunkLoop page T ps current cid,
      c.text.length ≤ T + 2 ∨
        ((∃ p ∈ ps₀, c.text = pstrip p) ∧ c.text.length > T)
  | [], hps, current, cid, hinv, c, hc => by
    rcases hinv with hemp | ⟨hstr, hprop⟩
    · rw [hemp, chunkLoop_nil_neg page T cid pstrip_empty] at hc
      simp at hc
    · by_cases hne : pstrip current = ""
      · rw [chunkLoop_nil_neg page T cid hne] at hc
        simp at hc
      · rw [chunkLoop_nil_pos page T cid hne] at hc
        rw [List.mem_singleton.mp hc]
        dsimp only
        rw [hstr]
        exact hprop
  | p :: rest, hps, current, cid, hinv, c, hc => by
    by_cases hp : pstrip p = ""
    · rw [chunkLoop_cons_empty page T cid rest current hp] at hc
      exact chunkLoop_size page T ps₀ rest (fun q hq => hps q (by simp [hq]))
        current cid hinv c hc
    · have hinv_para : pstrip p = "" ∨ (pstrip (pstrip p) = pstrip p ∧
          ((pstrip p).length ≤ T + 2 ∨
            ((∃ q ∈ ps₀, pstrip p = pstrip q) ∧ (pstrip p).length > T))) := by
        right
        refine ⟨pstrip_idem p, ?_⟩
        by_cases hlen : (pstrip p).length ≤ T + 2
        · exact Or.inl hlen
        · exact Or.inr ⟨⟨p, hps p (by simp), rfl⟩, by omega⟩
      by_cases hcond : current.length + (pstrip p).length > T ∧ current ≠ ""
      · rw [chunkLoop_cons_flush page T cid rest hp hcond] at hc
        rcases List.mem_cons.mp hc with hhead | htail
        · rcases hinv with hemp | ⟨hstr, hprop⟩
          · exact absurd hemp hcond.2
          · rw [hhead]
            dsimp only
            rw [hstr]
            exact hprop
        · exact chunkLoop_size page T ps₀ rest (fun q hq => hps q (by simp [hq]))
            (pstrip p) (cid + 1) hinv_para c htail
      · rw [chunkLoop_cons_app page T cid rest hp hcond] at hc
        by_cases hcur : current = ""
        · rw [if_pos hcur] at hc
          exact chunkLoop_size page T ps₀ rest (fun q hq => hps q (by simp [hq]))
            (pstrip p) cid hinv_para c hc
        · rw [if_neg hcur] at hc
          have hlen : current.length + (pstrip p).length ≤ T := by
            by_contra hgt
            exact hcond ⟨by omega, hcur⟩
          rcases hinv with hemp | ⟨hstr, _⟩
          · exact absurd hemp hcur
          · have hstr' : StrippedNE (current ++ "\n\n" ++ pstrip p) :=
              StrippedNE_append_sep ⟨hstr, hcur⟩ (StrippedNE_pstrip hp)
            have hlen' : (current ++ "\n\n" ++ pstrip p).length ≤ T + 2 := by
              rw [String.length_append, String.length_append]
              have h2 : ("\n\n" : String).length = 2 := rfl
              omega
            exact chunkLoop_size page T ps₀ rest (fun q hq => hps q (by simp [hq]))
              _ cid (Or.inr ⟨hstr'.1, Or.inl hlen'⟩) c hc

/-- The ids emitted by the paragraph loop are the consecutive ordinals
starting at the running counter, tagged with the page. -/
theorem chunkLoop_ids (page T : Nat) :
    ∀ (ps : List String) (current : String) (cid : Nat),
      (chunkLoop page T ps current cid).map Chunk.id =
        (List.range' cid (chunkLoop page T ps current cid).length).map
          (mkChunkId page)
  | [], current, cid => by
    by_cases h : pstrip current = ""
    · rw [chunkLoop_nil_neg page T cid h]
      rfl
    · rw [chunkLoop_nil_pos page T cid h]
      rfl
  | p :: rest, current, cid => by
    by_cases hp : pstrip p = ""
    · rw [chunkLoop_cons_empty page T cid rest current hp]
      exact chunkLoop_ids page T rest current cid
    · by_cases hcond : current.length + (pstrip p).length > T ∧ current ≠ ""
      · rw [chunkLoop_cons_flush page T cid rest hp hcond]
        rw [List.length_cons, List.range'_succ, List.map_cons, List.map_cons]
        rw [chunkLoop_ids page T rest (pstrip p) (cid + 1)]
      · rw [chunkLoop_cons_app page T cid rest hp hcond]
        exact chunkLoop_ids page T rest _ cid

/-- A page whose text does not strip to empty always yields at least one
chunk. -/
theorem chunk_text_simple_ne_nil {t : String} (page T : Nat) (h : pstrip t ≠ "") :
    chunk_text_simple t page T ≠ [] := by
  obtain ⟨groups, h1, _, h3⟩ := chunkLoop_groups page T (pySplit t) [] 0 (by simp)
  rw [pyJoin_nil] at h3
  intro hnil
  rw [chunk_text_simple] at hnil
  rw [hnil] at h3
  have hgroups : groups = [] := by
    cases groups with
    | nil => rfl
    | cons g gs => simp at h3
  rw [hgroups] at h1
  have hparas : parasOf (pySplit t) = [] := by simpa using h1.symm
  have hallpieces : ∀ p ∈ pySplit t, pstrip p = "" := by
    intro p hp
    by_contra hne
    have hmem : pstrip p ∈ parasOf (pySplit t) := by
      rw [parasOf]
      exact List.mem_filter.mpr ⟨List.mem_map_of_mem pstrip hp, by simpa using hne⟩
    rw [hparas] at hmem
    simp at hmem
  apply h
  rw [pstrip_eq_empty_iff]
  intro c hc
  rw [← joinSep_splitChars t.data] at hc
  rcases mem_joinSep hc with ⟨g, hg, hcg⟩ | hnl
  · have hmem : (⟨g⟩ : String) ∈ pySplit t := List.mem_map_of_mem String.mk hg
    have hempty := hallpieces ⟨g⟩ hmem
    rw [pstrip_eq_empty_iff] at hempty
    exact hempty c hcg
  · rw [hnl]
    decide

/-! ## Lemmas about the indexer -/

theorem store_batch_count (embed : String → List Int) (st : IndexState)
    (chunks : List Chunk) :
    (store_batch embed st chunks).1.store.length = st.store.length + chunks.length ∧
    (store_batch embed st chunks).2 = chunks.length := by
  by_cases h : chunks = []
  · subst h
    simp [store_batch]
  · simp [store_batch, h]

theorem store_batch_store_of_update (embed : String → List Int) (st : IndexState)
    (n : Nat) (chunks : List Chunk) :
    (store_batch embed { st with chunkCalls := n } chunks).1.store =
      (store_batch embed st chunks).1.store := by
  by_cases h : chunks = []
  · subst h
    simp [store_batch]
  · simp [store_batch, h]

/-- Total number of chunks produced by a list of extracted pages. -/
def sumChunks (pages : List (Nat × String)) : Nat :=
  (pages.map fun pg => (chunk_text_simple pg.2 pg.1 800).length).sum

theorem processPages_count (embed : String → List Int) :
    ∀ (pages : List (Nat × String)) (st : IndexState) (buf : List Chunk)
      (total : Nat),
      (processPages embed pages st buf total).1.store.length =
        st.store.length + buf.length + sumChunks pages ∧
      (processPages embed pages st buf total).2 =
        total + buf.length + sumChunks pages
  | [], st, buf, total => by
    by_cases h : buf = []
    · subst h
      simp [processPages, sumChunks]
    · simp only [processPages, if_pos h, sumChunks, List.map_nil, List.sum_nil,
        Nat.add_zero]
      exact ⟨(store_batch_count embed st buf).1,
        by rw [(store_batch_count embed st buf).2]⟩
  | (page, ptext) :: rest, st, buf, total => by
    simp only [processPages]
    by_cases h : (buf ++ chunk_text_simple ptext page 800).length ≥ BATCH_SIZE
    · rw [if_pos h]
      have hrec := processPages_count embed rest
        (store_batch embed { st with chunkCalls := st.chunkCalls + 1 }
          (buf ++ chunk_text_simple ptext page 800)).1 []
        (total + (store_batch embed { st with chunkCalls := st.chunkCalls + 1 }
          (buf ++ chunk_text_simple ptext page 800)).2)
      have hsb := store_batch_count embed
        { st with chunkCalls := st.chunkCalls + 1 }
        (buf ++ chunk_text_simple ptext page 800)
      have hsum : sumChunks ((page, ptext) :: rest) =
          (chunk_text_simple ptext page 800).length + sumChunks rest := by
        simp [sumChunks]
      constructor
      · rw [hrec.1, hsb.1]
        simp only [List.length_nil, List.length_append]
        rw [hsum]
        omega
      · rw [hrec.2, hsb.2]
        simp only [List.length_nil, List.length_append]
        rw [hsum]
        omega
    · rw [if_neg h]
      have hrec := processPages_count embed rest
        { st with chunkCalls := st.chunkCalls + 1 }
        (buf ++ chunk_text_simple ptext page 800) total
      have hsum : sumChunks ((page, ptext) :: rest) =
          (chunk_text_simple ptext page 800).length + sumChunks rest := by
        simp [sumChunks]
      constructor
      · rw [hrec.1]
        simp only [List.length_append]
        rw [hsum]
        omega
      · rw [hrec.2]
        simp only [List.length_append]
        rw [hsum]
        omega

theorem processPages_nil_nil (embed : String → List Int) (st : IndexState)
    (total : Nat) : processPages embed [] st [] total = (st, total) := by
  simp [processPages]

theorem extract_pages_stripped {pdf : List String} :
    ∀ pr ∈ extract_pages pdf, pstrip pr.2 ≠ "" := by
  intro pr hpr
  rw [extract_pages] at hpr
  obtain ⟨it, hit, heq⟩ := List.mem_map.mp hpr
  have hfil := (List.mem_filter.mp hit).2
  rw [← heq]
  dsimp only
  rw [pstrip_idem]
  simpa using hfil

theorem extract_pages_eq_nil_of_sum_zero {pdf : List String}
    (h : sumChunks (extract_pages pdf) = 0) : extract_pages pdf = [] := by
  cases hext : extract_pages pdf with
  | nil => rfl
  | cons pr rest =>
    exfalso
    have hne := extract_pages_stripped pr (by rw [hext]; simp)
    have hchunks := chunk_text_simple_ne_nil pr.1 800 hne
    rw [hext, sumChunks] at h
    simp only [List.map_cons, List.sum_cons] at h
    have hzero : (chunk_text_simple pr.2 pr.1 800).length = 0 := by omega
    exact hchunks (List.length_eq_zero.mp hzero)

theorem process_store_length (embed : String → List Int) (st : IndexState)
    (pdf : List String) (h : st.store.length = 0) :
    (process_and_store_pdf embed st pdf).1.store.length =
      sumChunks (extract_pages pdf) := by
  rw [process_and_store_pdf, if_neg (by omega)]
  have hc := processPages_count embed (extract_pages pdf) st [] 0
  rw [hc.1, h]
  simp

/-! ## Lemmas about the indexer with zero-chunk pages (frame) -/

theorem processPages_no_chunks (embed : String → List Int) :
    ∀ (pages : List (Nat × String)) (st : IndexState) (total : Nat),
      (∀ pg ∈ pages, chunk_text_simple pg.2 pg.1 800 = []) →
      processPages embed pages st [] total =
        ({ st with chunkCalls := st.chunkCalls + pages.length }, total)
  | [], st, total, _ => by
    simp [processPages]
  | (page, ptext) :: rest, st, total, h => by
    have hpage : chunk_text_simple ptext page 800 = [] := h (page, ptext) (by simp)
    simp only [processPages, hpage, List.append_nil]
    rw [if_neg (by simp [BATCH_SIZE])]
    rw [processPages_no_chunks embed rest _ total
      (fun pg hpg => h pg (List.mem_cons_of_mem _ hpg))]
    have harith : st.chunkCalls + 1 + rest.length =
        st.chunkCalls + ((page, ptext) :: rest).length := by
      simp only [List.length_cons]
      omega
    rw [show ({ st with chunkCalls := st.chunkCalls + 1 } : IndexState).chunkCalls =
      st.chunkCalls + 1 from rfl, harith]

/-! ## Lemmas about the conversation history -/

theorem rtake_eq_self {α : Type} {l : List α} {n : Nat} (h : l.length ≤ n) :
    rtake n l = l := by
  simp only [rtake, Nat.sub_eq_zero_of_le h, List.drop_zero]

theorem rtake_length {α : Type} (n : Nat) (l : List α) :
    (rtake n l).length = min n l.length := by
  simp only [rtake, List.length_drop]
  omega

theorem updateHistory_eq_rtake (h : List Msg) (q a : String) :
    updateHistory h q a =
      rtake HISTORY_CAP (h ++ [Msg.mk "user" q, Msg.mk "assistant" a]) := by
  simp only [updateHistory]
  by_cases hlen :
      (h ++ [Msg.mk "user" q, Msg.mk "assistant" a]).length > HISTORY_CAP
  · rw [if_pos hlen]
  · rw [if_neg hlen, rtake_eq_self (by omega)]

theorem rtake_append_rtake {α : Type} (n : Nat) (t x : List α) :
    rtake n (rtake n t ++ x) = rtake n (t ++ x) := by
  by_cases h : t.length ≤ n
  · rw [rtake_eq_self h]
  · have hd : t.length - n ≤ t.length := by omega
    simp only [rtake]
    rw [← List.drop_append_of_le_length hd, List.drop_drop]
    congr 1
    rw [List.length_drop, List.length_append]
    omega

theorem transcript_append_singleton (qas : List (String × String))
    (qa : String × String) :
    transcript (qas ++ [qa]) =
      transcript qas ++ [Msg.mk "user" qa.1, Msg.mk "assistant" qa.2] := by
  simp [transcript]

theorem applyQueries_eq_rtake (qas : List (String × String)) :
    applyQueries qas = rtake HISTORY_CAP (transcript qas) := by
  induction qas using List.reverseRecOn with
  | nil => rfl
  | append_singleton qas qa ih =>
    show List.foldl (fun h qa => updateHistory h qa.1 qa.2) [] (qas ++ [qa]) = _
    rw [List.foldl_append, List.foldl_cons, List.foldl_nil]
    rw [show List.foldl (fun h qa => updateHistory h qa.1 qa.2) [] qas =
      applyQueries qas from rfl]
    rw [ih, updateHistory_eq_rtake, transcript_append_singleton,
      rtake_append_rtake]

theorem alternating_transcript (qas : List (String × String)) :
    alternating (transcript qas) = true := by
  induction qas with
  | nil => rfl
  | cons qa qas ih =>
    show alternating
      (Msg.mk "user" qa.1 :: Msg.mk "assistant" qa.2 :: transcript qas) = true
    simp [alternating, ih]

theorem alternating_even_length :
    ∀ {l : List Msg}, alternating l = true → l.length % 2 = 0
  | [], _ => rfl
  | [_], h => by simp [alternating] at h
  | _ :: _ :: rest, h => by
    simp only [alternating, Bool.and_eq_true] at h
    have := alternating_even_length (l := rest) h.2
    simp only [List.length_cons]
    omega

theorem alternating_drop_two :
    ∀ {l : List Msg}, alternating l = true → alternating (l.drop 2) = true
  | [], _ => rfl
  | [_], h => by simp [alternating] at h
  | _ :: _ :: _, h => by
    simp only [alternating, Bool.and_eq_true] at h
    simpa using h.2

theorem alternating_drop_even :
    ∀ (k : Nat) {l : List Msg}, alternating l = true →
      alternating (l.drop (2 * k)) = true
  | 0, _, h => h
  | k + 1, l, h => by
    have h2 := alternating_drop_two h
    have hrec := alternating_drop_even k h2
    rw [List.drop_drop] at hrec
    rw [show 2 * (k + 1) = 2 + 2 * k from by omega]
    exact hrec

theorem alternating_rtake {l : List Msg} (h : alternating l = true) :
    alternating (rtake HISTORY_CAP l) = true := by
  have hev := alternating_even_length h
  simp only [rtake]
  obtain ⟨k, hk⟩ : ∃ k, l.length - HISTORY_CAP = 2 * k := by
    refine ⟨(l.length - HISTORY_CAP) / 2, ?_⟩
    have hcap : HISTORY_CAP = 20 := rfl
    omega
  rw [hk]
  exact alternating_drop_even k h

/-! ## Lemmas about the context prompt -/

theorem ne_empty_of_length_pos {s : String} (h : 0 < s.length) : s ≠ "" := by
  intro he
  rw [he] at h
  simp at h

/-- The `[Context i]` labels counted from `i`, written as a direct
recursion: the spec's enumeration of the retrieved chunks. -/
def labeledFrom (i : Nat) : List SearchResult → List String
  | [] => []
  | c :: cs => ("[Context " ++ decRepr i ++ "]\n" ++ c.text) :: labeledFrom (i + 1) cs

theorem labeledFrom_eq (n : Nat) (cs : List SearchResult) :
    (List.enumFrom n cs).map
        (fun ic => "[Context " ++ decRepr (ic.1 + 1) ++ "]\n" ++ ic.2.text) =
      labeledFrom (n + 1) cs := by
  induction cs generalizing n with
  | nil => rfl
  | cons c cs ih =>
    simp only [List.enumFrom, List.map_cons, labeledFrom, ih]

/-! ## Claim theorems -/

/-- C1 (counterexample): the claim "every chunk's text length is at most
T, except at most one oversized chunk per call, occurring only when a
single paragraph exceeds T" is false on the code: with threshold 10, the
input `"aaaaa\n\nbbbbb\n\nccccc\n\nddddd"` (four paragraphs of length 5,
none exceeding 10) produces two chunks that are both of length 12 > 10,
because the paragraph-merge test ignores the two joining newline
characters. -/
theorem C1_counterexample :
    chunk_text_simple "aaaaa\n\nbbbbb\n\nccccc\n\nddddd" 1 10 =
      [⟨"page1_chunk0", "aaaaa\n\nbbbbb", 1⟩,
        ⟨"page1_chunk1", "ccccc\n\nddddd", 1⟩] ∧
    ("aaaaa\n\nbbbbb" : String).length = 12 ∧
    ("ccccc\n\nddddd" : String).length = 12 ∧
    (∀ p ∈ pySplit "aaaaa\n\nbbbbb\n\nccccc\n\nddddd",
      (pstrip p).length ≤ 10) := by
  decide

/-- C1 (amended): for every chunk-size threshold T, input text and page,
every chunk produced by `chunk_text_simple` has text length at most
T + 2 (the slack being the two newline characters of a paragraph join),
except chunks that consist of a single stripped input paragraph whose
length already exceeds T; such oversized chunks are not limited to one
per call. -/
theorem C1_chunk_size_amended (text : String) (page T : Nat) :
    ∀ c ∈ chunk_text_simple text page T,
      c.text.length ≤ T + 2 ∨
        ((∃ p ∈ pySplit text, c.text = pstrip p) ∧ c.text.length > T) := by
  intro c hc
  exact chunkLoop_size page T (pySplit text) (pySplit text) (fun _ hp => hp)
    "" 0 (Or.inl rfl) c hc

theorem C1_chunk_size_amended_witness :
    (⟨"page1_chunk0", "hello", 1⟩ : Chunk).text.length ≤ 800 + 2 ∨
      ((∃ p ∈ pySplit "hello",
          (⟨"page1_chunk0", "hello", 1⟩ : Chunk).text = pstrip p) ∧
        (⟨"page1_chunk0", "hello", 1⟩ : Chunk).text.length > 800) :=
  C1_chunk_size_amended "hello" 1 800 ⟨"page1_chunk0", "hello", 1⟩ (by decide)

/-- C2: indexing is idempotent by presence.  For every embedding
function, initial state and source, running `process_and_store_pdf` a
second time on the result of a first run changes nothing at all — the
store and every effect counter (chunker invocations, embedding calls,
store writes) are unchanged — and the second call returns the store's
existing record count, so the final chunk count equals that of a single
call. -/
theorem C2_indexing_idempotent (embed : String → List Int) (st0 : IndexState)
    (pdf : List String) :
    (process_and_store_pdf embed (process_and_store_pdf embed st0 pdf).1 pdf).1 =
      (process_and_store_pdf embed st0 pdf).1 ∧
    (process_and_store_pdf embed (process_and_store_pdf embed st0 pdf).1 pdf).2 =
      (process_and_store_pdf embed st0 pdf).1.store.length := by
  by_cases h : (process_and_store_pdf embed st0 pdf).1.store.length > 0
  · constructor <;>
      rw [process_and_store_pdf, if_pos h]
  · have hz : (process_and_store_pdf embed st0 pdf).1.store.length = 0 := by
      omega
    have hst0 : st0.store.length = 0 := by
      by_contra hne
      have hpos : st0.store.length > 0 := by omega
      rw [process_and_store_pdf, if_pos hpos] at hz
      have hz' : st0.store.length = 0 := hz
      omega
    have hsum : sumChunks (extract_pages pdf) = 0 := by
      rw [← process_store_length embed st0 pdf hst0]
      exact hz
    have hext := extract_pages_eq_nil_of_sum_zero hsum
    rw [process_and_store_pdf, if_neg (by omega), hext, processPages_nil_nil]
    exact ⟨rfl, by omega⟩

/-- C3: for every query and every k ≥ 1, `search` succeeds and returns
exactly `min k (store size)` results — never more than k, all available
records when the store is smaller than k (the empty store included) —
in ascending-distance order (nearest first). -/
theorem C3_search_bounds (embed : String → List Int) (store : List Record)
    (query : String) (k : Int) (hk : 1 ≤ k) :
    ∃ res : List SearchResult,
      search embed store query (some k) = some res ∧
      res.length = min k.toNat store.length ∧
      List.Pairwise (fun a b : SearchResult =>
        a.distance.getD 0 ≤ b.distance.getD 0) res := by
  have hk0 : k ≠ 0 := by omega
  have hkneg : ¬k < 0 := by omega
  refine ⟨((store.insertionSort (distLE (embed query))).take k.toNat).map
    fun r => SearchResult.mk r.text (some (sqDist (embed query) r.vec))
      (some r.page), ?_, ?_, ?_⟩
  · simp only [search, effective_n_results, if_neg hk0, collectionQuery,
      if_neg hkneg]
    by_cases hrecs : (store.insertionSort (distLE (embed query))).take k.toNat = []
    · rw [hrecs]
      simp
    · rw [if_neg (by simpa [List.map_eq_nil_iff] using hrecs)]
  · rw [List.length_map, List.length_take, List.length_insertionSort]
  · apply List.pairwise_map.mpr
    have hsort : List.Pairwise (distLE (embed query))
        (store.insertionSort (distLE (embed query))) :=
      List.sorted_insertionSort (distLE (embed query)) store
    have htake := List.Pairwise.sublist (List.take_sublist k.toNat _) hsort
    exact htake.imp fun hab => hab

theorem C3_search_bounds_witness :
    ∃ res : List SearchResult,
      search (fun s => [(s.length : Int)])
        [⟨"page1_chunk0", [0], "ta", 1⟩, ⟨"page2_chunk0", [3], "tb", 2⟩]
        "xx" (some 5) = some res ∧
      res.length = min (5 : Int).toNat
        ([⟨"page1_chunk0", [0], "ta", 1⟩,
          ⟨"page2_chunk0", [3], "tb", 2⟩] : List Record).length ∧
      List.Pairwise (fun a b : SearchResult =>
        a.distance.getD 0 ≤ b.distance.getD 0) res :=
  C3_search_bounds (fun s => [(s.length : Int)])
    [⟨"page1_chunk0", [0], "ta", 1⟩, ⟨"page2_chunk0", [3], "tb", 2⟩]
    "xx" 5 (by decide)

/-- C4 (counterexample): the claim "for every k < 1 passed to `search`,
k is replaced by the configured default rather than causing an error" is
false on the code: the Python guard `n_results or default` only replaces
the falsy values `None` and `0`, so k = -1 < 1 is kept as -1 and handed
to the vector store, where it errors instead of behaving like the
default. -/
theorem C4_counterexample :
    effective_n_results (some (-1)) = -1 ∧
    ((-1 : Int) < 1) ∧
    search (fun _ => [(0 : Int)]) [⟨"page1_chunk0", [0], "t", 1⟩] "q"
      (some (-1)) = none ∧
    search (fun _ => [(0 : Int)]) [⟨"page1_chunk0", [0], "t", 1⟩] "q"
      none = some [⟨"t", some 0, some 1⟩] := by
  decide

/-- C4 (amended): only a missing (`None`) or zero `n_results` is
replaced by the configured default `max_context_chunks`; `search` with
k = 0 behaves exactly as with the default, while any nonzero k —
negative values included — is passed through unchanged to the vector
store. -/
theorem C4_effective_k_amended (embed : String → List Int)
    (store : List Record) (q : String) :
    search embed store q (some 0) = search embed store q none ∧
    effective_n_results none = (max_context_chunks : Int) ∧
    effective_n_results (some 0) = (max_context_chunks : Int) ∧
    ∀ k : Int, k ≠ 0 → effective_n_results (some k) = k := by
  refine ⟨?_, rfl, rfl, ?_⟩
  · simp [search, effective_n_results]
  · intro k hk
    simp [effective_n_results, hk]

theorem C4_effective_k_amended_witness :
    search (fun _ => [(0 : Int)]) [] "q" (some 0) =
      search (fun _ => [(0 : Int)]) [] "q" none ∧
    effective_n_results (some (-7)) = -7 :=
  ⟨(C4_effective_k_amended (fun _ => [(0 : Int)]) [] "q").1,
    (C4_effective_k_amended (fun _ => [(0 : Int)]) [] "q").2.2.2 (-7)
      (by decide)⟩

/-- C5: after any sequence of query calls starting from a fresh session,
the conversation history never exceeds the 20-message cap, and it equals
exactly the most recent 20 messages of the untrimmed transcript — i.e.
once an append would exceed the cap the oldest messages are evicted
first (FIFO); each single update likewise keeps the most recent 20 of
the appended history. -/
theorem C5_history_capped (qas : List (String × String)) :
    (applyQueries qas).length ≤ HISTORY_CAP ∧
    applyQueries qas = rtake HISTORY_CAP (transcript qas) ∧
    (∀ h q a, updateHistory h q a =
      rtake HISTORY_CAP (h ++ [Msg.mk "user" q, Msg.mk "assistant" a])) := by
  refine ⟨?_, applyQueries_eq_rtake qas, updateHistory_eq_rtake⟩
  rw [applyQueries_eq_rtake qas, rtake_length]
  omega

/-- C6: within one call of the chunker, the produced ids are pairwise
distinct and are exactly `page{page}_chunk{i}` for the consecutive
ordinals i = 0, 1, … — a deterministic function of the page number and
the chunk's ordinal alone, hence stable across runs on the same
input. -/
theorem C6_chunk_ids (text : String) (page T : Nat) :
    ((chunk_text_simple text page T).map Chunk.id).Nodup ∧
    (chunk_text_simple text page T).map Chunk.id =
      (List.range' 0 (chunk_text_simple text page T).length).map
        (mkChunkId page) := by
  have hids := chunkLoop_ids page T (pySplit text) "" 0
  constructor
  · rw [show (chunk_text_simple text page T).map Chunk.id =
      (List.range' 0 (chunk_text_simple text page T).length).map
        (mkChunkId page) from hids]
    apply List.Nodup.map
    · intro i j hij
      exact mkChunkId_inj_right page hij
    · exact List.nodup_range' 0 _
  · exact hids

/-- C7: the context block built from a list of retrieved chunks labels
each chunk text `[Context i]` with i counting from 1 in ranked order and
joins the parts with blank lines; the empty list instead yields the
explicit marker `"No relevant context found in the documentation."`, so
the block handed to the completion capability is never the empty
string. -/
theorem C7_context_prompt (cs : List SearchResult) :
    build_context_prompt [] = "No relevant context found in the documentation." ∧
    (cs ≠ [] → build_context_prompt cs = pyJoin "\n\n" (labeledFrom 1 cs)) ∧
    build_context_prompt cs ≠ "" := by
  refine ⟨rfl, ?_, ?_⟩
  · intro h
    rw [build_context_prompt, if_neg h]
    rw [show cs.enum = List.enumFrom 0 cs from rfl, labeledFrom_eq 0 cs]
  · cases cs with
    | nil => decide
    | cons c cs' =>
      apply ne_empty_of_length_pos
      rw [build_context_prompt, if_neg (by simp)]
      have hmap : (c :: cs').enum.map
          (fun ic => "[Context " ++ decRepr (ic.1 + 1) ++ "]\n" ++ ic.2.text) =
          ("[Context " ++ decRepr 1 ++ "]\n" ++ c.text) ::
            (List.enumFrom 1 cs').map
              (fun ic => "[Context " ++ decRepr (ic.1 + 1) ++ "]\n" ++ ic.2.text) := by
        rw [List.enum_cons]
        rfl
      rw [hmap]
      have hhead : 0 < ("[Context " ++ decRepr 1 ++ "]\n" ++ c.text).length := by
        rw [String.length_append, String.length_append, String.length_append]
        have h9 : ("[Context " : String).length = 9 := rfl
        omega
      exact lt_of_lt_of_le hhead (pyJoin_length_ge "\n\n" _ _)

theorem C7_context_prompt_witness :
    build_context_prompt
        [⟨"ta", some 0, some 1⟩, ⟨"tb", none, none⟩] =
      pyJoin "\n\n" (labeledFrom 1 [⟨"ta", some 0, some 1⟩, ⟨"tb", none, none⟩]) :=
  (C7_context_prompt [⟨"ta", some 0, some 1⟩, ⟨"tb", none, none⟩]).2.1
    (by decide)

/-- C8: after any sequence of successful query calls on a fresh session
the history has even length and strictly alternates user, assistant,
user, … starting with a user turn; each query appends exactly one user
turn then one assistant turn before the cap trim, and the trim to the
last 20 messages preserves the alternation and parity. -/
theorem C8_history_alternating (qas : List (String × String)) :
    alternating (applyQueries qas) = true ∧
    (∀ h q a, updateHistory h q a =
      rtake HISTORY_CAP (h ++ [Msg.mk "user" q, Msg.mk "assistant" a])) := by
  refine ⟨?_, updateHistory_eq_rtake⟩
  rw [applyQueries_eq_rtake]
  exact alternating_rtake (alternating_transcript qas)

/-- C9: the chunker loses no content and preserves order: the texts of
the produced chunks are exactly the blank-line joins of a partition of
the stripped nonempty paragraphs of the input into consecutive nonempty
groups — every kept paragraph lands in exactly one chunk, chunks contain
nothing but such paragraphs, and input order is preserved. -/
theorem C9_chunker_lossless (text : String) (page T : Nat) :
    ∃ groups : List (List String),
      groups.flatten = parasOf (pySplit text) ∧
      (∀ g ∈ groups, g ≠ []) ∧
      (chunk_text_simple text page T).map Chunk.text =
        groups.map (pyJoin "\n\n") := by
  obtain ⟨groups, h1, h2, h3⟩ := chunkLoop_groups page T (pySplit text) [] 0
    (by simp)
  rw [pyJoin_nil] at h3
  exact ⟨groups, by simpa using h1, fun g hg => (h2 g hg).1, h3⟩

/-- C10: flushing an empty batch is a no-op — `_store_batch` on an empty
chunk list returns 0 with no embedding call and no store write — and
indexing a source all of whose extracted pages yield zero chunks writes
nothing, changes neither the store nor the embedding/write counters, and
returns 0. -/
theorem C10_empty_batch_noop (embed : String → List Int) (st : IndexState)
    (pdf : List String) :
    store_batch embed st [] = (st, 0) ∧
    (st.store = [] →
      (∀ pg ∈ extract_pages pdf, chunk_text_simple pg.2 pg.1 800 = []) →
      process_and_store_pdf embed st pdf =
        ({ st with chunkCalls := st.chunkCalls + (extract_pages pdf).length },
          0)) := by
  refine ⟨rfl, ?_⟩
  intro hs hnp
  rw [process_and_store_pdf, if_neg (by rw [hs]; simp)]
  exact processPages_no_chunks embed (extract_pages pdf) st 0 hnp

theorem C10_empty_batch_noop_witness :
    process_and_store_pdf (fun _ => [(0 : Int)]) ⟨[], 0, 0, 0⟩ ["\n \n"] =
      (⟨[], 0, 0, 0⟩, 0) :=
  (C10_empty_batch_noop (fun _ => [(0 : Int)]) ⟨[], 0, 0, 0⟩ ["\n \n"]).2
    rfl (by decide)

end RagSpec
